import Mathlib

/-
Verification development for the GeneralAgent repository.

Part 1 embeds the summary concept store (src/GeneralAgent/memory/summary_memory.py):
the concept list with show flags, the show/hide fenced-directive matcher (a direct
model of the regular expressions used there), the generic block parser, and the
add_content streaming loop.

Part 2 embeds the plan structuring function (referenced by src/test/test_agent.py,
body absent from src), modelled from the spec.

Part 3 embeds the agent core (src/GeneralAgent/agent.py): the memory tree operations
(modelled from the spec, their code is absent from src), the streaming interpreter
dispatch loop of Agent._execute_node, and the outer to-do loop of Agent.run.

String primitives (strip, split, startswith, slicing, join, replace) are defined
here by structural recursion on the character list, mirroring the Python string
operations, so that every definition evaluates inside the kernel.
-/

/-- Python str.strip from the left. -/
def trimL (cs : List Char) : List Char :=
  ((cs.dropWhile Char.isWhitespace).reverse.dropWhile Char.isWhitespace).reverse

/-- Python str.strip on a string. -/
def trimS (s : String) : String :=
  String.mk (trimL s.data)

/-- Python str.split on the newline character. -/
def splitNl : List Char → List (List Char)
  | [] => [[]]
  | c :: t =>
    if c == '\n' then [] :: splitNl t
    else
      match splitNl t with
      | [] => [[c]]
      | l :: ls => (c :: l) :: ls

/-- Lines of a string, Python s.split newline. -/
def linesS (s : String) : List String :=
  (splitNl s.data).map String.mk

/-- Character-list test: pat is an initial segment of cs (Python startswith). -/
def startsL : List Char → List Char → Bool
  | [], _ => true
  | _ :: _, [] => false
  | p :: ps, c :: cs => p == c && startsL ps cs

/-- Python str.endswith. -/
def endsL (pat cs : List Char) : Bool :=
  startsL pat.reverse cs.reverse

/-- Python slice s[2:-2] on a marker line. -/
def innerTitle (l : String) : String :=
  String.mk ((l.data.drop 2).take (l.data.length - 4))

/-- Python sep.join(list). -/
def intercalateS (sep : String) : List String → String
  | [] => ""
  | [a] => a
  | a :: rest => a ++ sep ++ intercalateS sep rest

/-- Index of the earliest occurrence of pat in cs, if any. -/
def findSub (pat : List Char) : List Char → Option Nat
  | [] => if startsL pat [] then some 0 else none
  | c :: t => if startsL pat (c :: t) then some 0 else (findSub pat t).map (· + 1)

/-- Replacement of every non-overlapping occurrence of pat (left to right, the
replacement text is not rescanned), as Python str.replace does.  Fuel-driven. -/
def replaceL (pat rep : List Char) : Nat → List Char → List Char
  | _, [] => []
  | 0, cs => cs
  | fuel + 1, c :: t =>
    if startsL pat (c :: t) then rep ++ replaceL pat rep fuel ((c :: t).drop pat.length)
    else c :: replaceL pat rep fuel t

/-- Python s.replace(pat, rep) for a non-empty pat (all our patterns are). -/
def replaceAllS (s pat rep : String) : String :=
  if pat.data.isEmpty then s
  else String.mk (replaceL pat.data rep.data (s.data.length + 1) s.data)

/-- Summary concept node: SummaryMemoryNode of summary_memory.py.  The unused
childrens/parents fields are omitted; the Python attribute `show` is named
`showFlag` here because `show` is a Lean keyword. -/
structure SNode where
  key : String
  content : String
  showFlag : Bool
deriving DecidableEq

/-- Concept store: the insertion-ordered dict self.concepts of SummaryMemory. -/
abbrev Concepts := List SNode

/-- Rendering str(node) of a SummaryMemoryNode. -/
def strNode (n : SNode) : String :=
  "<<" ++ n.key ++ ">>" ++ "\n" ++ n.content

/-- Dictionary lookup self.concepts[key]. -/
def lookupC (c : Concepts) (k : String) : Option SNode :=
  c.find? (fun n => n.key == k)

/-- Membership test `key in self.concepts`. -/
def keyMem (c : Concepts) (k : String) : Bool :=
  c.any (fun n => n.key == k)

/-- Store contents right after SummaryMemory.__init__ on an empty database:
only the hidden empty ROOT concept. -/
def initConcepts : Concepts :=
  [⟨"ROOT", "", false⟩]

/-- SummaryMemory.get_show_memory. -/
def get_show_memory (c : Concepts) : String :=
  trimS (intercalateS ("\n" ++ "\n")
    ((c.filter (fun n => n.showFlag && !(trimS n.content == ""))).map strNode))

/-- Content of the ROOT concept, self.concepts['ROOT'].content. -/
def rootContent (c : Concepts) : String :=
  match lookupC c ("ROOT") with
  | some n => n.content
  | none => ""

/-- Show flag of the ROOT concept. -/
def rootFlag (c : Concepts) : Bool :=
  match lookupC c ("ROOT") with
  | some n => n.showFlag
  | none => false

/-- Match of the directive header at the current position.  The regular
expressions of summary_memory.py open with three backticks, an optional
newline (greedy, tried first), the tag word, and a newline; tag already
carries the trailing newline.  Returns the header length. -/
def tagHeader (tag : List Char) (cs : List Char) : Option Nat :=
  if startsL (("```" ++ "\n").data ++ tag) cs then some (4 + tag.length)
  else if startsL (("```").data ++ tag) cs then some (3 + tag.length) else none

/-- Leftmost full match of the fenced-directive pattern of summary_memory.py
("```" then optional newline then tag then lazy body then newline-fence),
as (start, header length, body length).  The lazy group takes the earliest
closing fence; if no closing fence exists after a matching header none exists
later either, so the whole search fails as the regex does. -/
def findTagMatch (tag : List Char) : List Char → Option (Nat × Nat × Nat)
  | [] => none
  | c :: t =>
    match tagHeader tag (c :: t) with
    | some hl =>
      match findSub (("\n" ++ "```").data) ((c :: t).drop hl) with
      | some bl => some (0, hl, bl)
      | none => none
    | none => (findTagMatch tag t).map (fun p => (p.1 + 1, p.2.1, p.2.2))

/-- Matches of re.finditer for the fenced-directive pattern, in order, each as
(group 0, group 2).  Non-overlapping: scanning resumes after each match. -/
def findTagMatches (tag : List Char) : Nat → List Char → List (List Char × List Char)
  | 0, _ => []
  | fuel + 1, cs =>
    match findTagMatch tag cs with
    | none => []
    | some (s, hl, bl) =>
      let g0 := (cs.drop s).take (hl + bl + 4)
      let g2 := (cs.drop (s + hl)).take bl
      (g0, g2) :: findTagMatches tag fuel (cs.drop (s + hl + bl + 4))

/-- First match of the show pattern in a string, as (group 0, group 2). -/
def showMatchOf (s : String) : Option (String × String) :=
  (findTagMatch (("show" ++ "\n").data) s.data).map
    (fun p => (String.mk ((s.data.drop p.1).take (p.2.1 + p.2.2 + 4)),
               String.mk ((s.data.drop (p.1 + p.2.1)).take p.2.2)))

/-- All matches of the hide pattern in a string, each as (group 0, group 2). -/
def hideMatchesOf (s : String) : List (String × String) :=
  (findTagMatches (("hide" ++ "\n").data) (s.data.length + 1) s.data).map
    (fun p => (String.mk p.1, String.mk p.2))

/-- Title-marker test of SummaryMemory.get_nodes on an already stripped line. -/
def isTitleLine (l : String) : Bool :=
  startsL (("<<").data) l.data && endsL ((">>").data) l.data

/-- Key extraction from one line of a directive body: the line is stripped and
an enclosing <<...>> marker, when present, is removed; the line is kept either
way (both get_hide_keys and get_show_keys do this). -/
def keyOfLine (l : String) : String :=
  let t := trimS l
  if isTitleLine t then innerTitle t else t

/-- Keys listed in a directive body: values.strip().split newline, one key per
line. -/
def keysOfBody (body : String) : List String :=
  (linesS (trimS body)).map keyOfLine

/-- SummaryMemory.get_show_keys, first component. -/
def showKeysOf (s : String) : List String :=
  match showMatchOf s with
  | some p => keysOfBody p.2
  | none => []

/-- SummaryMemory.get_hide_keys, first component (the method strips the
content before searching). -/
def hideKeysOf (s : String) : List String :=
  ((hideMatchesOf (trimS s)).map (fun p => keysOfBody p.2)).flatten

/-- SummaryMemory._parse_show: sets show true on every listed existing key,
then replaces all copies of the matched directive text by the rendered listed
concepts; unknown listed keys are skipped, not created.  Returns
(concepts, parsed, content). -/
def parse_show (c : Concepts) (content : String) : Concepts × Bool × String :=
  match showMatchOf content with
  | none => (c, false, content)
  | some (g0, g2) =>
    let keys := keysOfBody g2
    let c' := c.map (fun n => if keys.contains n.key then { n with showFlag := true } else n)
    let rv := intercalateS ("\n" ++ "\n") (keys.filterMap (fun k => (lookupC c' k).map strNode))
    (c', true, replaceAllS content g0 rv)

/-- One key step of SummaryMemory._parse_hide: an existing key has its show
flag set false, an unknown key is appended as an empty hidden concept. -/
def hideStep (acc : Concepts) (k : String) : Concepts :=
  if keyMem acc k then acc.map (fun n => if n.key == k then { n with showFlag := false } else n)
  else acc ++ [⟨k, "", false⟩]

/-- SummaryMemory._parse_hide. -/
def parse_hide (c : Concepts) (content : String) : Concepts × Bool × String :=
  let keys := hideKeysOf content
  if keys.isEmpty then (c, false, content)
  else
    let c' := keys.foldl hideStep c
    (c', true, (hideMatchesOf content).foldl (fun s p => replaceAllS s p.1 ("")) content)

/-- Accumulation nodes[key] = nodes.get(key, '') + value of get_nodes. -/
def assocAdd (l : List (String × String)) (k v : String) : List (String × String) :=
  if l.any (fun p => p.1 == k) then l.map (fun p => if p.1 == k then (p.1, p.2 ++ v) else p)
  else l ++ [(k, v)]

/-- Line loop of SummaryMemory.get_nodes.  Each line is stripped; empty lines
are skipped; a <<title>> line flushes the pending value (only when a key is
already open: text before the first title stays in value) and opens a new key;
any other line is appended, stripped, with a newline. -/
def getNodesLoop : List String → Option String → String → List (String × String) → List (String × String)
  | [], key, value, nodes =>
    match key with
    | some k => assocAdd nodes k value
    | none => nodes
  | line :: rest, key, value, nodes =>
    let l := trimS line
    if l == "" then getNodesLoop rest key value nodes
    else if isTitleLine l then
      match key with
      | some k => getNodesLoop rest (some (innerTitle l)) ("") (assocAdd nodes k value)
      | none => getNodesLoop rest (some (innerTitle l)) value nodes
    else getNodesLoop rest key (value ++ l ++ "\n") nodes

/-- SummaryMemory.get_nodes: the loop above over the stripped content's lines,
then a final strip of every accumulated value. -/
def get_nodes (content : String) : List (String × String) :=
  (getNodesLoop (linesS (trimS content)) none ("") []).map (fun p => (p.1, trimS p.2))

/-- One upsert step of SummaryMemory._parse_block: an existing key has its
content replaced (show flag untouched), an unknown key is appended hidden. -/
def upsertContent (acc : Concepts) (k v : String) : Concepts :=
  if keyMem acc k then acc.map (fun n => if n.key == k then { n with content := v } else n)
  else acc ++ [⟨k, v, false⟩]

/-- SummaryMemory._parse_block. -/
def parse_block (c : Concepts) (content : String) : Concepts × Bool × String :=
  ((get_nodes content).foldl (fun acc p => upsertContent acc p.1 p.2) c, true, content)

/-- SummaryMemory.instant_parse. -/
def instant_parse (c : Concepts) (content : String) : Concepts × Bool × String :=
  parse_show c content

/-- SummaryMemory.post_parse: hide first, then block; the parsed flag is their
disjunction. -/
def post_parse (c : Concepts) (content : String) : Concepts × Bool × String :=
  let h := parse_hide c content
  let b := parse_block h.1 h.2.2
  (b.1, b.2.1 || h.2.1, b.2.2)

/-- Inner token loop of SummaryMemory.add_content for one LLM response: None
tokens are skipped, each other token is appended to result and instant_parse
runs; when it parses, post_parse runs and the loop reports parsed. -/
def streamPass : List (Option String) → Concepts → String → Concepts × String × Bool
  | [], c, r => (c, r, false)
  | none :: rest, c, r => streamPass rest c r
  | some t :: rest, c, r =>
    let r1 := r ++ t
    let s := instant_parse c r1
    if s.2.1 then
      let p := post_parse s.1 s.2.2
      (p.1, p.2.2, true)
    else streamPass rest s.1 s.2.2

/-- Outer while loop of SummaryMemory.add_content: after a parsed pass the
loop re-prompts (the next stream); an unparsed pass runs post_parse and stops. -/
def addContentLoop (streams : Nat → List (Option String)) : Nat → Nat → Concepts → String → Concepts × String
  | 0, _, c, r => (c, r)
  | fuel + 1, k, c, r =>
    let s := streamPass (streams k) c r
    if s.2.2 then addContentLoop streams fuel (k + 1) s.1 s.2.1
    else
      let p := post_parse s.1 s.2.1
      (p.1, p.2.2)

/-- SummaryMemory.add_content: the loop from an empty result, returning the
final store and the view get_show_memory + newline + ROOT content. -/
def add_content (streams : Nat → List (Option String)) (fuel : Nat) (c : Concepts) : Concepts × String :=
  let r := addContentLoop streams fuel 0 c ("")
  (r.1, get_show_memory r.1 ++ "\n" ++ rootContent r.1)

/-- Spec-worded variant of get_nodes for comparison: body lines accumulate
verbatim until the next title marker or end of text, with leading and trailing
whitespace stripped only per block.  Written from the spec's sentence, to be
compared with get_nodes which follows the source. -/
def specGetNodesVerbatim (content : String) : List (String × String) :=
  let fin := (linesS content).foldl (fun st line =>
      if isTitleLine line then
        match st.1 with
        | some k => (some (innerTitle line), ("" : String), assocAdd st.2.2 k st.2.1)
        | none => (some (innerTitle line), st.2.1, st.2.2)
      else (st.1, st.2.1 ++ line ++ "\n", st.2.2))
    ((none : Option String), ("" : String), ([] : List (String × String)))
  let flushed := match fin.1 with
    | some k => assocAdd fin.2.2 k fin.2.1
    | none => fin.2.2
  flushed.map (fun p => (p.1, trimS p.2))

/-- Plan hierarchy: a tree of plan items, each an item text with its sub-items
in order. -/
inductive PlanTree where
  | mk (children : List (String × PlanTree))

/-- Numbered-item test: the stripped line opens with a digit. -/
def isItemLine (t : String) : Bool :=
  match t.data with
  | [] => false
  | c :: _ => c.isDigit

/-- Indentation depth of a raw line: leading spaces, four per level. -/
def lineDepth (line : String) : Nat :=
  (line.data.takeWhile (fun c => c == ' ')).length / 4

/-- Modelled from the spec: line pass of the plan structuring (structure_plan
is imported by src/test/test_agent.py but its body is absent from src).  Per
spec section 4.3, parsing is whitespace-tolerant: blank lines are skipped,
numbered lines become items at the depth given by their indentation, and a
line that does not match the item pattern is a continuation of the previous
item's content. -/
def planItemsAux : List String → List (Nat × String) → List (Nat × String)
  | [], acc => acc.reverse
  | line :: rest, acc =>
    let t := trimS line
    if t == "" then planItemsAux rest acc
    else if isItemLine t then planItemsAux rest ((lineDepth line, t) :: acc)
    else
      match acc with
      | [] => planItemsAux rest acc
      | (d, txt) :: as => planItemsAux rest ((d, txt ++ "\n" ++ t) :: as)

/-- Modelled from the spec: hierarchy construction of the plan structuring.
Items at the current depth become siblings; deeper items become children of
the preceding item; a shallower item closes the current level.  Fuel-driven
(one unit per processed node is enough). -/
def buildForest : Nat → Nat → List (Nat × String) → List (String × PlanTree) × List (Nat × String)
  | 0, _, items => ([], items)
  | _ + 1, _, [] => ([], [])
  | fuel + 1, d, (dep, txt) :: rest =>
    if dep < d then ([], (dep, txt) :: rest)
    else
      let ch := buildForest fuel (d + 1) rest
      let sib := buildForest fuel d ch.2
      ((txt, PlanTree.mk ch.1) :: sib.1, sib.2)

/-- Modelled from the spec: structure_plan, absent from src.  Decomposes
free-text numbered and indented content into a hierarchy of plan items. -/
def structure_plan (content : String) : PlanTree :=
  let items := planItemsAux (linesS content) []
  PlanTree.mk (buildForest (items.length + 1) 0 items).1

/-- Status of a memory node: pending or success (spec section 3: no explicit
failure state, failed nodes are deleted). -/
inductive NodeStatus where
  | pending
  | success
deriving DecidableEq, BEq

/-- Memory tree node, MemoryNode of the repository (its module is absent from
src; attributes per spec section 3). -/
structure MemoryNode where
  node_id : Nat
  role : String
  action : String
  content : String
  status : NodeStatus
deriving DecidableEq

/-- Modelled from the spec: the Memory store (its module is absent from src).
Spec section 4.1 and 9: an arena of nodes addressed by stable ids, held here
in traversal order, with a monotonic id counter and a current-node cursor. -/
structure Memory where
  nodes : List MemoryNode
  next_id : Nat
  current : Option Nat
deriving DecidableEq

/-- Fresh node with a given id, created pending. -/
def mkNode (id : Nat) (role action content : String) : MemoryNode :=
  ⟨id, role, action, content, .pending⟩

/-- Modelled from the spec: Memory.add_node appends a new pending node and
assigns it the next id. -/
def add_node (m : Memory) (role action content : String) : Memory × Nat :=
  (⟨m.nodes ++ [mkNode m.next_id role action content], m.next_id + 1, m.current⟩, m.next_id)

/-- Insertion of a node right after the first node carrying refId (appended at
the end when refId is absent). -/
def insertAfterL : List MemoryNode → Nat → MemoryNode → List MemoryNode
  | [], _, n => [n]
  | x :: xs, refId, n =>
    if x.node_id == refId then x :: n :: xs else x :: insertAfterL xs refId n

/-- Modelled from the spec: Memory.add_node_after inserts the new node as the
successor of the referenced node in traversal order and does not alter the
referenced node's status. -/
def add_node_after (m : Memory) (refId : Nat) (role action content : String) : Memory × Nat :=
  (⟨insertAfterL m.nodes refId (mkNode m.next_id role action content), m.next_id + 1, m.current⟩,
   m.next_id)

/-- Marking every node with the given id (unique in a well-formed tree) as
success. -/
def successIdL (l : List MemoryNode) (id : Nat) : List MemoryNode :=
  l.map (fun n => if n.node_id == id then { n with status := .success } else n)

/-- Modelled from the spec: Memory.success_node, idempotent. -/
def success_node (m : Memory) (id : Nat) : Memory :=
  ⟨successIdL m.nodes id, m.next_id, m.current⟩

/-- Modelled from the spec: Memory.delete_node removes the node, leaving the
other nodes' links intact. -/
def delete_node (m : Memory) (id : Nat) : Memory :=
  ⟨m.nodes.filter (fun n => !(n.node_id == id)), m.next_id, m.current⟩

/-- Modelled from the spec: Memory.set_current_node. -/
def set_current (m : Memory) (id : Nat) : Memory :=
  ⟨m.nodes, m.next_id, some id⟩

/-- Mutation answer_node.content = result of _execute_node, as an update of
the stored node. -/
def set_content (m : Memory) (id : Nat) (c : String) : Memory :=
  ⟨m.nodes.map (fun n => if n.node_id == id then { n with content := c } else n),
   m.next_id, m.current⟩

/-- Modelled from the spec: Memory.get_node by id. -/
def lookupMem (m : Memory) (id : Nat) : Option MemoryNode :=
  m.nodes.find? (fun n => n.node_id == id)

/-- Modelled from the spec: Memory.get_todo_node returns the oldest pending
node in the deterministic traversal order. -/
def get_todo_node (m : Memory) : Option MemoryNode :=
  m.nodes.find? (fun n => n.status == NodeStatus.pending)

/-- Agent._insert_node: without for_node_id the input node is added at the
end; with for_node_id it is inserted after the referenced node, which is then
marked success. -/
def insert_node (m : Memory) (input : String) (forId : Option Nat) : Memory × Nat :=
  match forId with
  | none => add_node m ("user") ("input") input
  | some f =>
    let r := add_node_after m f ("user") ("input") input
    (success_node r.1 f, r.2)

/-- Output interpreter capability (spec section 4.2): a match pattern over the
accumulated buffer and a parse returning output text plus the stop flag; parse
may raise, modelled by Except. -/
structure Interp where
  match_template : String → Bool
  parse : String → Except Unit (String × Bool)

/-- Agent.__init__: the five output interpreters in their fixed priority
order. -/
structure OutputInterps where
  python_interpreter : Interp
  bash_interpreter : Interp
  applescript_interpreter : Interp
  file_interpreter : Interp
  ask_interpreter : Interp

/-- Agent.self.output_interpreters: python, bash, applescript, file, ask. -/
def output_interpreters (o : OutputInterps) : List Interp :=
  [o.python_interpreter, o.bash_interpreter, o.applescript_interpreter,
   o.file_interpreter, o.ask_interpreter]

/-- Inner interpreter scan of _execute_node: the first interpreter in list
order whose pattern matches the buffer, with its index and parse result. -/
def scanInterps : List Interp → String → Option (Nat × Except Unit (String × Bool))
  | [], _ => none
  | it :: rest, r =>
    if it.match_template r then some (0, it.parse r)
    else (scanInterps rest r).map (fun p => (p.1 + 1, p.2))

/-- One event of the LLM token stream: a text token, a None token (Python
breaks on it), or an exception raised while producing the next token. -/
inductive StreamItem where
  | tok (s : String)
  | noneTok
  | raise
deriving DecidableEq

/-- Observable outcome of the token loop of _execute_node: the accumulated
result, the is_stop flag, the output-callback invocations in order (None
modelling the Python None sentinel), the consumed tokens in order, the index
of the interpreter whose parse was invoked (if any), the unconsumed stream
remainder, and whether an exception was raised inside the try body. -/
structure LoopOut where
  result : String
  stop : Bool
  calls : List (Option String)
  consumed : List String
  matchedIdx : Option Nat
  remaining : List StreamItem
  exc : Bool
deriving DecidableEq

/-- Callback raising schedule shifted past k already-made calls. -/
def cbShift (cb : Nat → Bool) (k : Nat) : Nat → Bool :=
  fun n => cb (n + k)

/-- Callback that never raises. -/
def cbF : Nat → Bool :=
  fun _ => false

/-- Token loop of Agent._execute_node (lines 125-138): for each token, break
on None, append to result, invoke the callback (cb tells whether the n-th
callback invocation raises), scan the output interpreters in order against the
whole buffer, and on the first match invoke its parse, emit its output, and
stop consuming the stream.  Exceptions can come from the stream itself, the
callback, or parse. -/
def streamLoop (interps : List Interp) : (Nat → Bool) → List StreamItem → String → Bool → LoopOut
  | _, [], result, stop => ⟨result, stop, [], [], none, [], false⟩
  | _, .noneTok :: rest, result, stop => ⟨result, stop, [], [], none, rest, false⟩
  | _, .raise :: rest, result, stop => ⟨result, stop, [], [], none, rest, true⟩
  | cb, .tok s :: rest, result, stop =>
    let r := result ++ s
    if cb 0 then ⟨r, stop, [some s], [s], none, rest, true⟩
    else
      match scanInterps interps r with
      | none =>
        let L := streamLoop interps (cbShift cb 1) rest r stop
        ⟨L.result, L.stop, some s :: L.calls, s :: L.consumed, L.matchedIdx, L.remaining, L.exc⟩
      | some (i, .error _) => ⟨r, stop, [some s], [s], some i, rest, true⟩
      | some (i, .ok (out, b)) =>
        let oc := "\n" ++ out ++ "\n"
        if cb 1 then ⟨r, b, [some s, some oc], [s], some i, rest, true⟩
        else ⟨r, b, [some s, some oc], [s], some i, rest, false⟩

/-- Observable outcome of Agent._execute_node: the memory afterwards, the
callback invocations, whether an exception escaped the method (only a raising
callback can cause this, the try body is guarded), and the returned
(node, is_stop) pair when it returns. -/
structure ExecOut where
  memory : Memory
  calls : List (Option String)
  escaped : Bool
  retNode : Nat
  retStop : Bool
deriving DecidableEq

/-- Pre-stream callback of _execute_node: plan nodes announce their content
before the try block. -/
def execPre (node : MemoryNode) : List (Option String) :=
  if node.action == "plan" then [some ("\n" ++ "[" ++ node.content ++ "]" ++ "\n")] else []

/-- Agent._execute_node: adds the answer node after the executed node, sets
the cursor, announces plan nodes, runs the token loop, and on success sends
the None sentinel, stores the result, and marks both nodes success; on an
exception inside the try body it sends the incomplete accumulated text to the
callback, deletes the answer node, and returns the original node with the
current is_stop.  A callback exception outside or inside the handler escapes. -/
def execute_node (interps : List Interp) (cb : Nat → Bool) (items : List StreamItem)
    (m : Memory) (node : MemoryNode) : ExecOut :=
  let aid := m.next_id
  let m1 := set_current (add_node_after m node.node_id ("system") ("answer") ("")).1 aid
  let pre := execPre node
  if node.action == "plan" && cb 0 then
    ⟨m1, pre, true, node.node_id, false⟩
  else
    let L := streamLoop interps (cbShift cb pre.length) items ("") false
    if L.exc then
      if cb (pre.length + L.calls.length) then
        ⟨m1, pre ++ L.calls ++ [some L.result], true, node.node_id, L.stop⟩
      else
        ⟨delete_node m1 aid, pre ++ L.calls ++ [some L.result], false, node.node_id, L.stop⟩
    else
      if cb (pre.length + L.calls.length) then
        if cb (pre.length + L.calls.length + 1) then
          ⟨m1, pre ++ L.calls ++ [none, some L.result], true, node.node_id, L.stop⟩
        else
          ⟨delete_node m1 aid, pre ++ L.calls ++ [none, some L.result], false, node.node_id, L.stop⟩
      else
        let m2 := success_node (success_node (set_content m1 aid L.result) node.node_id) aid
        ⟨m2, pre ++ L.calls ++ [none], false, aid, L.stop⟩

/-- Input interpreter capability (spec section 4.2): a match pattern and a
side-effecting parse that rewrites the memory. -/
structure InputInterp where
  match_template : String → Bool
  parse : Memory → String → Memory

/-- Observable event of the outer run loop: a completed node execution (with
the returned node id and stop flag) or a poll of the cancellation flag. -/
inductive RunEvent where
  | exec (nodeId retNode : Nat) (stop : Bool)
  | poll (b : Bool)
deriving DecidableEq

/-- Result of Agent.run: an escaped exception, a returned Python value (node
id or None), or fuel exhaustion of the model (the source loop still running). -/
inductive RunRet where
  | raised
  | value (v : Option Nat)
  | fuelOut
deriving DecidableEq

/-- Observable outcome of Agent.run. -/
structure RunOut where
  memory : Memory
  trace : List RunEvent
  ret : RunRet
deriving DecidableEq

/-- Environment of one Agent.run call: the output interpreters, the input
interpreters, the token stream and callback-raising schedule of each
successive turn, the cancellation flag value at each successive poll, the
starting memory, and the run arguments. -/
structure RunCfg where
  interps : List Interp
  inputInterps : List InputInterp
  turns : Nat → List StreamItem
  cbs : Nat → Nat → Bool
  stopFlag : Nat → Bool
  m0 : Memory
  input : Option String
  forNodeId : Option Nat

/-- To-do loop of Agent.run (lines 63-76): execute the current to-do node; on
is_stop return its id; otherwise fetch the next to-do node, poll the
cancellation flag once (returning None when set), and continue while a to-do
node remains. -/
def runLoop (cfg : RunCfg) : Nat → Memory → Option MemoryNode → Nat → RunOut
  | 0, m, _, _ => ⟨m, [], .fuelOut⟩
  | _ + 1, m, none, _ => ⟨m, [], .value none⟩
  | fuel + 1, m, some nd, k =>
    let e := execute_node cfg.interps (cfg.cbs k) (cfg.turns k) m nd
    if e.escaped then ⟨e.memory, [.exec nd.node_id e.retNode e.retStop], .raised⟩
    else if e.retStop then ⟨e.memory, [.exec nd.node_id e.retNode true], .value (some e.retNode)⟩
    else
      let todo := get_todo_node e.memory
      if cfg.stopFlag k then ⟨e.memory, [.exec nd.node_id e.retNode false, .poll true], .value none⟩
      else
        let r := runLoop cfg fuel e.memory todo (k + 1)
        ⟨r.memory, .exec nd.node_id e.retNode false :: .poll false :: r.trace, r.ret⟩

/-- Agent.run: optionally insert the input node (after for_node_id when given,
marking it success), set the cursor, run the first matching input interpreter,
then enter the to-do loop starting from the first to-do node (falling back to
the input node, as `get_todo_node() or input_node` does). -/
def run (cfg : RunCfg) (fuel : Nat) : RunOut :=
  match cfg.input with
  | none => runLoop cfg fuel cfg.m0 (get_todo_node cfg.m0) 0
  | some inp =>
    let r := insert_node cfg.m0 inp cfg.forNodeId
    let m2 := set_current r.1 r.2
    let m3 := match cfg.inputInterps.find? (fun ii => ii.match_template inp) with
      | some ii => ii.parse m2 inp
      | none => m2
    let todo0 := match get_todo_node m3 with
      | some n => some n
      | none => some (mkNode r.2 ("user") ("input") inp)
    runLoop cfg fuel m3 todo0 0

/-- Alternation shape of a run trace: executions and polls strictly
interleave, starting with an execution (the argument tells which is expected
next; true means an execution). -/
def altFrom : Bool → List RunEvent → Bool
  | _, [] => true
  | true, .exec _ _ _ :: r => altFrom false r
  | true, .poll _ :: _ => false
  | false, .poll _ :: r => altFrom true r
  | false, .exec _ _ _ :: _ => false

/-- Callback that raises on every invocation (e.g. an assert-style callback). -/
def cbT : Nat → Bool :=
  fun _ => true

/-- Sample pending input node used by concrete instantiations. -/
def sampleNode : MemoryNode :=
  ⟨0, "user", "input", "hi", .pending⟩

/-- Sample one-node memory used by concrete instantiations. -/
def sampleMemory : Memory :=
  ⟨[sampleNode], 1, none⟩

/-- Sample interpreter matching buffers of length at least two. -/
def interpLen2 : Interp :=
  ⟨fun r => Nat.ble 2 r.data.length, fun r => .ok (r, true)⟩

/-- Sample interpreter matching buffers of length at least one. -/
def interpLen1 : Interp :=
  ⟨fun r => Nat.ble 1 r.data.length, fun _ => .ok ("bout", false)⟩

/-- Sample interpreter that never matches. -/
def interpNever : Interp :=
  ⟨fun _ => false, fun _ => .error ()⟩

/-- Sample output-interpreter family whose first two members both match the
buffer "ab". -/
def sampleOut : OutputInterps :=
  ⟨interpLen2, interpLen1, interpNever, interpNever, interpNever⟩

/-- Sample run environment whose callback raises on every call and whose LLM
stream raises at once: the recovery path itself raises, so run raises. -/
def cfgRaise : RunCfg :=
  ⟨[], [], fun _ => [.raise], fun _ => cbT, fun _ => false, ⟨[], 0, none⟩, some ("hi"), none⟩

/-- Sample run environment with a well-behaved callback and the cancellation
flag set from the start. -/
def cfgFlag : RunCfg :=
  ⟨[], [], fun _ => [.tok "x"], fun _ => cbF, fun _ => true, ⟨[], 0, none⟩, some ("hi"), none⟩

/-- Sample run environment with a well-behaved callback and the cancellation
flag never set: the run exhausts its to-do nodes. -/
def cfgPlain : RunCfg :=
  ⟨[], [], fun _ => [.tok "x"], fun _ => cbF, fun _ => false, ⟨[], 0, none⟩, some ("hi"), none⟩

theorem scanInterps_none (l : List Interp) (r : String) (h : scanInterps l r = none) :
    ∀ i (hi : i < l.length), (l.get ⟨i, hi⟩).match_template r = false := by
  induction l with
  | nil => intro i hi; exact absurd hi (by simp)
  | cons it rest ih =>
    intro i hi
    by_cases hm : it.match_template r
    · simp [scanInterps, hm] at h
    · simp [scanInterps, hm, Option.map_eq_none'] at h
      cases i with
      | zero => simpa using hm
      | succ n => exact ih h n (by simpa using hi)

theorem scanInterps_some (l : List Interp) (r : String) (i : Nat)
    (p : Except Unit (String × Bool)) (h : scanInterps l r = some (i, p)) :
    ∃ hi : i < l.length, (l.get ⟨i, hi⟩).match_template r = true ∧
      ∀ k (hk : k < l.length), k < i → (l.get ⟨k, hk⟩).match_template r = false := by
  induction l generalizing i p with
  | nil => simp [scanInterps] at h
  | cons it rest ih =>
    by_cases hm : it.match_template r
    · simp [scanInterps, hm] at h
      obtain ⟨h1, h2⟩ := h
      subst h1
      exact ⟨by simp, by simpa using hm, fun k hk hki => absurd hki (by omega)⟩
    · simp [scanInterps, hm, Option.map_eq_some'] at h
      obtain ⟨a, ha, hai⟩ := h
      subst hai
      obtain ⟨hlt, hmt, hmin⟩ := ih a p ha
      refine ⟨by simpa using Nat.succ_lt_succ hlt, by simpa using hmt, ?_⟩
      intro k hk hki
      cases k with
      | zero => simpa using hm
      | succ n => exact hmin n (by simpa using hk) (by omega)

/-- C1: in the streaming dispatch loop of Agent._execute_node, whenever the
accumulated buffer after the next token is matched by two interpreters of the
fixed priority list (python, bash, applescript, file, ask), the parse invoked
is that of the earliest matching interpreter (every earlier one does not
match), the later matching interpreter's parse is not invoked, and the stream
short-circuits: the remaining tokens are not consumed. -/
theorem first_match_short_circuit (o : OutputInterps) (cb : Nat → Bool) (s : String)
    (rest : List StreamItem) (r0 : String) (st0 : Bool) (i j : Nat)
    (hi : i < (output_interpreters o).length) (hj : j < (output_interpreters o).length)
    (hij : i < j) (hcb : cb 0 = false)
    (hmi : ((output_interpreters o).get ⟨i, hi⟩).match_template (r0 ++ s) = true)
    (hmj : ((output_interpreters o).get ⟨j, hj⟩).match_template (r0 ++ s) = true) :
    ∃ m, ∃ hm : m < (output_interpreters o).length,
      (streamLoop (output_interpreters o) cb (.tok s :: rest) r0 st0).matchedIdx = some m ∧
      m ≤ i ∧ m < j ∧
      ((output_interpreters o).get ⟨m, hm⟩).match_template (r0 ++ s) = true ∧
      (∀ k (hk : k < (output_interpreters o).length), k < m →
        ((output_interpreters o).get ⟨k, hk⟩).match_template (r0 ++ s) = false) ∧
      (streamLoop (output_interpreters o) cb (.tok s :: rest) r0 st0).remaining = rest ∧
      (streamLoop (output_interpreters o) cb (.tok s :: rest) r0 st0).consumed = [s] := by
  cases hscan : scanInterps (output_interpreters o) (r0 ++ s) with
  | none =>
    have hf := scanInterps_none _ _ hscan i hi
    rw [hmi] at hf
    exact absurd hf (by simp)
  | some mp =>
    obtain ⟨m, p⟩ := mp
    obtain ⟨hm, hmt, hmin⟩ := scanInterps_some _ _ _ _ hscan
    have hmi' : m ≤ i := by
      by_contra hc
      have hf := hmin i hi (by omega)
      rw [hmi] at hf
      exact absurd hf (by simp)
    have hmj' : m < j := by omega
    refine ⟨m, hm, ?_, hmi', hmj', hmt, hmin, ?_, ?_⟩ <;>
      cases p with
      | error e => simp [streamLoop, hcb, hscan]
      | ok ob =>
        obtain ⟨out, b⟩ := ob
        cases hc1 : cb 1 <;> simp [streamLoop, hcb, hscan, hc1]

/-- Witness for C1: with the first two sample interpreters both matching the
buffer "ab", the matched index is the earliest and the rest of the stream is
left unconsumed. -/
theorem first_match_short_circuit_witness :
    (streamLoop (output_interpreters sampleOut) cbF
      [StreamItem.tok "ab", StreamItem.tok "c"] "" false).matchedIdx = some 0 ∧
    (streamLoop (output_interpreters sampleOut) cbF
      [StreamItem.tok "ab", StreamItem.tok "c"] "" false).remaining = [StreamItem.tok "c"] ∧
    (streamLoop (output_interpreters sampleOut) cbF
      [StreamItem.tok "ab", StreamItem.tok "c"] "" false).consumed = ["ab"] := by
  obtain ⟨m, hm, h1, h2, h3, h4, h5, h6, h7⟩ :=
    first_match_short_circuit sampleOut cbF "ab" [StreamItem.tok "c"] "" false 0 1
      (by decide) (by decide) (by decide) (by decide) (by decide) (by decide)
  have hm0 : m = 0 := by omega
  subst hm0
  exact ⟨h1, h6, h7⟩

theorem cbShift_cbF (k : Nat) : cbShift cbF k = cbF := rfl

theorem streamLoop_cbF_exc_stop (interps : List Interp) :
    ∀ (items : List StreamItem) (r0 : String) (s0 : Bool),
      (streamLoop interps cbF items r0 s0).exc = true →
      (streamLoop interps cbF items r0 s0).stop = s0 := by
  intro items
  induction items with
  | nil => intro r0 s0 h; simp [streamLoop] at h
  | cons it rest ih =>
    intro r0 s0 h
    cases it with
    | noneTok => simp [streamLoop] at h
    | raise => simp [streamLoop]
    | tok s =>
      simp only [streamLoop, cbShift_cbF, cbF] at h ⊢
      cases hscan : scanInterps interps (r0 ++ s) with
      | none =>
        simp only [hscan] at h ⊢
        exact ih (r0 ++ s) s0 (by simpa using h)
      | some mp =>
        obtain ⟨m, p⟩ := mp
        cases p with
        | error e => simp [hscan] at h ⊢
        | ok ob => simp [hscan] at h

theorem streamLoop_cbF_calls (interps : List Interp) :
    ∀ (items : List StreamItem) (r0 : String) (s0 : Bool),
      (streamLoop interps cbF items r0 s0).calls =
        (streamLoop interps cbF items r0 s0).consumed.map some ∨
      ∃ oc, (streamLoop interps cbF items r0 s0).calls =
        (streamLoop interps cbF items r0 s0).consumed.map some ++ [some oc] := by
  intro items
  induction items with
  | nil => intro r0 s0; left; simp [streamLoop]
  | cons it rest ih =>
    intro r0 s0
    cases it with
    | noneTok => left; simp [streamLoop]
    | raise => left; simp [streamLoop]
    | tok s =>
      simp only [streamLoop, cbShift_cbF, cbF]
      cases hscan : scanInterps interps (r0 ++ s) with
      | none =>
        simp only [hscan]
        rcases ih (r0 ++ s) s0 with hcase | ⟨oc, hcase⟩
        · left; simp [hcase]
        · right; exact ⟨oc, by simp [hcase]⟩
      | some mp =>
        obtain ⟨m, p⟩ := mp
        cases p with
        | error e => left; simp [hscan]
        | ok ob =>
          obtain ⟨out, b⟩ := ob
          right
          exact ⟨"\n" ++ out ++ "\n", by simp [hscan]⟩

theorem streamLoop_cbF_exc_calls (interps : List Interp) :
    ∀ (items : List StreamItem) (r0 : String) (s0 : Bool),
      (streamLoop interps cbF items r0 s0).exc = true →
      (streamLoop interps cbF items r0 s0).calls =
        (streamLoop interps cbF items r0 s0).consumed.map some := by
  intro items
  induction items with
  | nil => intro r0 s0 h; simp [streamLoop] at h
  | cons it rest ih =>
    intro r0 s0 h
    cases it with
    | noneTok => simp [streamLoop] at h
    | raise => simp [streamLoop]
    | tok s =>
      simp only [streamLoop, cbShift_cbF, cbF] at h ⊢
      cases hscan : scanInterps interps (r0 ++ s) with
      | none =>
        simp only [hscan] at h ⊢
        simp [ih (r0 ++ s) s0 (by simpa using h)]
      | some mp =>
        obtain ⟨m, p⟩ := mp
        cases p with
        | error e => simp [hscan]
        | ok ob => simp [hscan] at h

theorem streamLoop_cbF_no_sentinel (interps : List Interp) (items : List StreamItem)
    (r0 : String) (s0 : Bool) :
    none ∉ (streamLoop interps cbF items r0 s0).calls := by
  rcases streamLoop_cbF_calls interps items r0 s0 with hcase | ⟨oc, hcase⟩ <;>
    simp [hcase]

theorem execPre_no_sentinel (node : MemoryNode) : none ∉ execPre node := by
  unfold execPre
  by_cases h : node.action == "plan" <;> simp [h]

theorem exec_cbF_eq (interps : List Interp) (items : List StreamItem) (m : Memory)
    (node : MemoryNode) :
    execute_node interps cbF items m node =
      (let L := streamLoop interps cbF items "" false
       let aid := m.next_id
       let m1 := set_current (add_node_after m node.node_id ("system") ("answer") ("")).1 aid
       if L.exc then
         ⟨delete_node m1 aid, execPre node ++ L.calls ++ [some L.result], false,
          node.node_id, L.stop⟩
       else
         ⟨success_node (success_node (set_content m1 aid L.result) node.node_id) aid,
          execPre node ++ L.calls ++ [none], false, aid, L.stop⟩) := by
  unfold execute_node
  simp only [cbShift_cbF, cbF, Bool.and_false, if_false]
  cases hexc : (streamLoop interps cbF items "" false).exc <;> simp [hexc]

theorem filter_ne_id (l : List MemoryNode) (a : Nat) (h : ∀ n ∈ l, n.node_id ≠ a) :
    l.filter (fun n => !(n.node_id == a)) = l := by
  induction l with
  | nil => rfl
  | cons x xs ih =>
    have hx : (x.node_id == a) = false := by simpa using h x (by simp)
    simp [List.filter_cons, hx, ih (fun n hn => h n (by simp [hn]))]

theorem insert_delete_id (l : List MemoryNode) (refId : Nat) (nw : MemoryNode)
    (h : ∀ n ∈ l, n.node_id ≠ nw.node_id) :
    (insertAfterL l refId nw).filter (fun n => !(n.node_id == nw.node_id)) = l := by
  induction l with
  | nil => simp [insertAfterL]
  | cons x xs ih =>
    have hx : (x.node_id == nw.node_id) = false := by simpa using h x (by simp)
    by_cases hr : (x.node_id == refId) = true
    · simp [insertAfterL, hr, List.filter_cons, hx,
        filter_ne_id xs nw.node_id (fun n hn => h n (by simp [hn]))]
    · simp [insertAfterL, hr, List.filter_cons, hx, ih (fun n hn => h n (by simp [hn]))]

/-- C2: when an exception is raised inside the guarded streaming body of
Agent._execute_node (from the LLM stream or an interpreter parse; the output
callback is well behaved), the just-created answer node is rolled back so the
memory's node list is exactly as before (in particular the originating node's
status is unchanged, still pending), the exception does not escape, the
method returns (original node, is_stop) with is_stop false since no
interpreter completed a parse, and the last callback invocation carries the
accumulated incomplete text. -/
theorem exception_rollback (interps : List Interp) (items : List StreamItem) (m : Memory)
    (node : MemoryNode)
    (hfresh : ∀ n ∈ m.nodes, n.node_id ≠ m.next_id)
    (hexc : (streamLoop interps cbF items "" false).exc = true) :
    (execute_node interps cbF items m node).memory.nodes = m.nodes ∧
    (execute_node interps cbF items m node).escaped = false ∧
    (execute_node interps cbF items m node).retNode = node.node_id ∧
    (execute_node interps cbF items m node).retStop = false ∧
    (execute_node interps cbF items m node).calls.getLast? =
      some (some (streamLoop interps cbF items "" false).result) := by
  rw [exec_cbF_eq]
  simp only [hexc, if_true]
  refine ⟨?_, trivial, trivial, ?_, ?_⟩
  · simp only [delete_node, set_current, add_node_after]
    exact insert_delete_id m.nodes node.node_id (mkNode m.next_id ("system") ("answer") ("")) hfresh
  · exact streamLoop_cbF_exc_stop interps items ("") false hexc
  · exact List.getLast?_concat _

/-- Witness for C2: a stream raising after one token leaves the sample memory
untouched and returns the original node. -/
theorem exception_rollback_witness :
    (execute_node [] cbF [StreamItem.tok "a", StreamItem.raise] sampleMemory sampleNode).memory.nodes
      = sampleMemory.nodes ∧
    (execute_node [] cbF [StreamItem.tok "a", StreamItem.raise] sampleMemory sampleNode).retNode = 0 ∧
    (execute_node [] cbF [StreamItem.tok "a", StreamItem.raise] sampleMemory sampleNode).retStop = false := by
  obtain ⟨h1, h2, h3, h4, h5⟩ :=
    exception_rollback [] [StreamItem.tok "a", StreamItem.raise] sampleMemory sampleNode
      (by decide) (by decide)
  exact ⟨h1, h3, h4⟩

/-- C7 (amended): with a well-behaved callback, the callback receives the
streamed tokens in order, one invocation each, possibly followed by one
interpreter-output invocation; on the plain-answer and interpreter-match paths
(no exception) _execute_node then invokes it exactly once with the None
sentinel, as the last call of the turn; on the exception path the sentinel is
never sent: the last call carries the incomplete accumulated text instead. -/
theorem callback_token_order_and_sentinel (interps : List Interp) (items : List StreamItem)
    (m : Memory) (node : MemoryNode) :
    ((streamLoop interps cbF items "" false).calls =
        (streamLoop interps cbF items "" false).consumed.map some ∨
      ∃ oc, (streamLoop interps cbF items "" false).calls =
        (streamLoop interps cbF items "" false).consumed.map some ++ [some oc]) ∧
    none ∉ execPre node ++ (streamLoop interps cbF items "" false).calls ∧
    ((streamLoop interps cbF items "" false).exc = false →
      (execute_node interps cbF items m node).calls =
        execPre node ++ (streamLoop interps cbF items "" false).calls ++ [none]) ∧
    ((streamLoop interps cbF items "" false).exc = true →
      (execute_node interps cbF items m node).calls =
        execPre node ++ (streamLoop interps cbF items "" false).calls ++
          [some (streamLoop interps cbF items "" false).result] ∧
      none ∉ (execute_node interps cbF items m node).calls) := by
  refine ⟨streamLoop_cbF_calls interps items ("") false, ?_, ?_, ?_⟩
  · intro hmem
    rcases List.mem_append.mp hmem with hpre | hcalls
    · exact execPre_no_sentinel node hpre
    · exact streamLoop_cbF_no_sentinel interps items ("") false hcalls
  · intro hexc
    rw [exec_cbF_eq]
    simp [hexc]
  · intro hexc
    rw [exec_cbF_eq]
    simp only [hexc, if_true]
    refine ⟨trivial, ?_⟩
    intro hmem
    rcases List.mem_append.mp hmem with hmem1 | hlast
    · rcases List.mem_append.mp hmem1 with hpre | hcalls
      · exact execPre_no_sentinel node hpre
      · exact streamLoop_cbF_no_sentinel interps items ("") false hcalls
    · simp at hlast

/-- Counterexample for C7: on the exception path the None end-of-turn
sentinel is not sent; the callback trace of a turn whose stream raises after
one token is the token and then the incomplete text, with no None invocation. -/
theorem no_sentinel_on_exception :
    (execute_node [] cbF [StreamItem.tok "a", StreamItem.raise] sampleMemory sampleNode).calls
      = [some "a", some "a"] ∧
    none ∉ (execute_node [] cbF [StreamItem.tok "a", StreamItem.raise] sampleMemory sampleNode).calls := by
  decide

/-- Witness for C7: a plain-answer turn sends the token and then exactly one
None sentinel. -/
theorem callback_token_order_and_sentinel_witness :
    (execute_node [] cbF [StreamItem.tok "x"] sampleMemory sampleNode).calls
      = [some "x", none] := by
  obtain ⟨h1, h2, h3, h4⟩ :=
    callback_token_order_and_sentinel [] [StreamItem.tok "x"] sampleMemory sampleNode
  rw [h3 (by decide)]
  decide

theorem exec_cbF_escaped (interps : List Interp) (items : List StreamItem) (m : Memory)
    (node : MemoryNode) :
    (execute_node interps cbF items m node).escaped = false := by
  rw [exec_cbF_eq]
  cases hexc : (streamLoop interps cbF items "" false).exc <;> simp [hexc]

theorem runLoop_cbF (cfg : RunCfg) (hcb : ∀ k, cfg.cbs k = cbF) :
    ∀ (fuel : Nat) (m : Memory) (todo : Option MemoryNode) (k : Nat),
      (runLoop cfg fuel m todo k).ret ≠ .raised ∧
      (∀ i, (runLoop cfg fuel m todo k).ret = .value (some i) →
        ∃ pre nid, (runLoop cfg fuel m todo k).trace = pre ++ [.exec nid i true]) ∧
      ((runLoop cfg fuel m todo k).ret = .value none →
        (runLoop cfg fuel m todo k).trace = [] ∨
        ∃ pre b, (runLoop cfg fuel m todo k).trace = pre ++ [.poll b]) := by
  intro fuel
  induction fuel with
  | zero =>
    intro m todo k
    refine ⟨by simp [runLoop], ?_, ?_⟩
    · intro i h; simp [runLoop] at h
    · intro h; simp [runLoop] at h
  | succ fuel ih =>
    intro m todo k
    cases todo with
    | none =>
      refine ⟨by simp [runLoop], ?_, ?_⟩
      · intro i h; simp [runLoop] at h
      · intro h; left; simp [runLoop]
    | some nd =>
      have hesc : (execute_node cfg.interps (cfg.cbs k) (cfg.turns k) m nd).escaped = false := by
        rw [hcb k]; exact exec_cbF_escaped _ _ _ _
      simp only [runLoop, hesc, Bool.false_eq_true, if_false]
      by_cases hstop : (execute_node cfg.interps (cfg.cbs k) (cfg.turns k) m nd).retStop = true
      · simp only [hstop, if_true]
        refine ⟨by simp, ?_, ?_⟩
        · intro i h
          have hin : (execute_node cfg.interps (cfg.cbs k) (cfg.turns k) m nd).retNode = i := by
            simpa using h
          exact ⟨[], nd.node_id, by simp [hin]⟩
        · intro h; simp at h
      · simp only [hstop, if_false]
        by_cases hflag : cfg.stopFlag k = true
        · simp only [hflag, if_true]
          refine ⟨by simp, ?_, ?_⟩
          · intro i h; simp at h
          · intro h
            right
            exact ⟨[RunEvent.exec nd.node_id
              (execute_node cfg.interps (cfg.cbs k) (cfg.turns k) m nd).retNode false],
              true, rfl⟩
        · simp only [hflag, if_false]
          obtain ⟨ih1, ih2, ih3⟩ := ih
            (execute_node cfg.interps (cfg.cbs k) (cfg.turns k) m nd).memory
            (get_todo_node (execute_node cfg.interps (cfg.cbs k) (cfg.turns k) m nd).memory)
            (k + 1)
          refine ⟨by simpa using ih1, ?_, ?_⟩
          · intro i h
            obtain ⟨pre, nid, hpre⟩ := ih2 i (by simpa using h)
            exact ⟨RunEvent.exec nd.node_id
              (execute_node cfg.interps (cfg.cbs k) (cfg.turns k) m nd).retNode false ::
              RunEvent.poll false :: pre, nid, by simp [hpre]⟩
          · intro h
            rcases ih3 (by simpa using h) with hnil | ⟨pre, b, hpre⟩
            · right
              exact ⟨[RunEvent.exec nd.node_id
                (execute_node cfg.interps (cfg.cbs k) (cfg.turns k) m nd).retNode false],
                false, by simp [hnil]⟩
            · right
              exact ⟨RunEvent.exec nd.node_id
                (execute_node cfg.interps (cfg.cbs k) (cfg.turns k) m nd).retNode false ::
                RunEvent.poll false :: pre, b, by simp [hpre]⟩

/-- C3 (amended): provided the caller's output callback never raises,
Agent.run never raises: every exception in a turn is caught and rolled back.
It returns the terminal answer node's id exactly by ending on an execution
whose interpreter signalled stop, and it returns the None sentinel only when
the run was cancelled at a poll of the stop flag or the to-do loop exhausted
(empty trace or trace ending in a poll), distinguishing the two outcomes.
The unamended claim fails when the callback itself raises: the recovery path
invokes the callback again and the exception escapes run. -/
theorem run_no_raise_with_total_callback (cfg : RunCfg) (fuel : Nat)
    (hcb : ∀ k, cfg.cbs k = cbF) :
    (run cfg fuel).ret ≠ .raised ∧
    (∀ i, (run cfg fuel).ret = .value (some i) →
      ∃ pre nid, (run cfg fuel).trace = pre ++ [.exec nid i true]) ∧
    ((run cfg fuel).ret = .value none →
      (run cfg fuel).trace = [] ∨
      ∃ pre b, (run cfg fuel).trace = pre ++ [.poll b]) := by
  cases hin : cfg.input with
  | none =>
    simp only [run, hin]
    exact runLoop_cbF cfg hcb fuel _ _ 0
  | some inp =>
    simp only [run, hin]
    exact runLoop_cbF cfg hcb fuel _ _ 0

/-- Counterexample for C3: Agent.run can raise.  With a callback that raises
on every invocation (the repository's own tests pass assert-style callbacks)
and a stream that raises, the recovery path of _execute_node invokes the
callback again, and that exception escapes run to the caller. -/
theorem run_raises_on_raising_callback : (run cfgRaise 1).ret = RunRet.raised := by
  decide

/-- Witness for C3: a run with a well-behaved callback does not raise. -/
theorem run_no_raise_with_total_callback_witness :
    (run cfgPlain 3).ret ≠ RunRet.raised :=
  (run_no_raise_with_total_callback cfgPlain 3 (fun _ => rfl)).1

theorem runLoop_alt (cfg : RunCfg) :
    ∀ (fuel : Nat) (m : Memory) (todo : Option MemoryNode) (k : Nat),
      altFrom true (runLoop cfg fuel m todo k).trace = true ∧
      (∀ pre, (runLoop cfg fuel m todo k).trace = pre ++ [.poll true] →
        (runLoop cfg fuel m todo k).ret = .value none) ∧
      (∀ pre b, (runLoop cfg fuel m todo k).trace = pre ++ [.poll b] →
        ∃ pre2 nid rid, pre = pre2 ++ [.exec nid rid false]) := by
  intro fuel
  induction fuel with
  | zero =>
    intro m todo k
    refine ⟨by simp [runLoop, altFrom], ?_, ?_⟩
    · intro pre h; simp [runLoop] at h
    · intro pre b h; simp [runLoop] at h
  | succ fuel ih =>
    intro m todo k
    cases todo with
    | none =>
      refine ⟨by simp [runLoop, altFrom], ?_, ?_⟩
      · intro pre h; simp [runLoop] at h
      · intro pre b h; simp [runLoop] at h
    | some nd =>
      simp only [runLoop]
      cases hesc : (execute_node cfg.interps (cfg.cbs k) (cfg.turns k) m nd).escaped with
      | true =>
        simp only [hesc, if_true]
        refine ⟨by simp [altFrom], ?_, ?_⟩
        · intro pre h
          have hl := congrArg List.getLast? h
          simp [List.getLast?_concat] at hl
        · intro pre b h
          have hl := congrArg List.getLast? h
          simp [List.getLast?_concat] at hl
      | false =>
      simp only [hesc, Bool.false_eq_true, if_false]
      cases hstop : (execute_node cfg.interps (cfg.cbs k) (cfg.turns k) m nd).retStop with
      | true =>
        simp only [hstop, if_true]
        refine ⟨by simp [altFrom], ?_, ?_⟩
        · intro pre h
          have hl := congrArg List.getLast? h
          simp [List.getLast?_concat] at hl
        · intro pre b h
          have hl := congrArg List.getLast? h
          simp [List.getLast?_concat] at hl
      | false =>
      simp only [hstop, Bool.false_eq_true, if_false]
      cases hflag : cfg.stopFlag k with
      | true =>
        simp only [hflag, if_true]
        refine ⟨by simp [altFrom], fun pre h => trivial, ?_⟩
        intro pre b h
        have hd := congrArg List.dropLast h
        simp [List.dropLast_concat] at hd
        exact ⟨[], nd.node_id,
          (execute_node cfg.interps (cfg.cbs k) (cfg.turns k) m nd).retNode,
          by simp [hd.symm]⟩
      | false =>
      simp only [hflag, Bool.false_eq_true, if_false]
      obtain ⟨ih1, ih2, ih3⟩ := ih
        (execute_node cfg.interps (cfg.cbs k) (cfg.turns k) m nd).memory
        (get_todo_node (execute_node cfg.interps (cfg.cbs k) (cfg.turns k) m nd).memory)
        (k + 1)
      refine ⟨by simpa [altFrom] using ih1, ?_, ?_⟩
      · intro pre h
        rcases List.eq_nil_or_concat
          (runLoop cfg fuel
            (execute_node cfg.interps (cfg.cbs k) (cfg.turns k) m nd).memory
            (get_todo_node (execute_node cfg.interps (cfg.cbs k) (cfg.turns k) m nd).memory)
            (k + 1)).trace with hnil | ⟨q, last, hq⟩
        · rw [hnil] at h
          have hl := congrArg List.getLast? h
          simp [List.getLast?_concat] at hl
        · rw [List.concat_eq_append] at hq
          rw [hq] at h
          have h' : (RunEvent.exec nd.node_id
              (execute_node cfg.interps (cfg.cbs k) (cfg.turns k) m nd).retNode false ::
              RunEvent.poll false :: q) ++ [last] = pre ++ [RunEvent.poll true] := by
            simpa using h
          have hl := congrArg List.getLast? h'
          rw [List.getLast?_concat, List.getLast?_concat] at hl
          have hlast : last = RunEvent.poll true := Option.some_inj.mp hl
          exact ih2 q (by rw [hq, hlast])
      · intro pre b h
        rcases List.eq_nil_or_concat
          (runLoop cfg fuel
            (execute_node cfg.interps (cfg.cbs k) (cfg.turns k) m nd).memory
            (get_todo_node (execute_node cfg.interps (cfg.cbs k) (cfg.turns k) m nd).memory)
            (k + 1)).trace with hnil | ⟨q, last, hq⟩
        · rw [hnil] at h
          have hd := congrArg List.dropLast h
          simp [List.dropLast_concat] at hd
          exact ⟨[], nd.node_id,
            (execute_node cfg.interps (cfg.cbs k) (cfg.turns k) m nd).retNode,
            by simp [hd.symm]⟩
        · rw [List.concat_eq_append] at hq
          rw [hq] at h
          have h' : (RunEvent.exec nd.node_id
              (execute_node cfg.interps (cfg.cbs k) (cfg.turns k) m nd).retNode false ::
              RunEvent.poll false :: q) ++ [last] = pre ++ [RunEvent.poll b] := by
            simpa using h
          have hl := congrArg List.getLast? h'
          rw [List.getLast?_concat, List.getLast?_concat] at hl
          have hlast : last = RunEvent.poll b := Option.some_inj.mp hl
          have hd := congrArg List.dropLast h'
          rw [List.dropLast_concat, List.dropLast_concat] at hd
          obtain ⟨pre2, nid, rid, hp2⟩ := ih3 q b (by rw [hq, hlast])
          refine ⟨RunEvent.exec nd.node_id
            (execute_node cfg.interps (cfg.cbs k) (cfg.turns k) m nd).retNode false ::
            RunEvent.poll false :: pre2, nid, rid, ?_⟩
          rw [← hd, hp2]
          simp

/-- C8: the cancellation flag is polled exactly once per completed loop
iteration of Agent.run, strictly between node executions and never mid-stream
(the trace strictly alternates completed executions and polls, starting with
an execution); a poll that reads the flag as true ends the run with the None
sentinel, and every terminating poll directly follows a completed,
non-stopping node execution, so a flag set during a node's streaming turn
takes effect only after that turn completes. -/
theorem cancellation_poll_between_nodes (cfg : RunCfg) (fuel : Nat) :
    altFrom true (run cfg fuel).trace = true ∧
    (∀ pre, (run cfg fuel).trace = pre ++ [.poll true] →
      (run cfg fuel).ret = .value none) ∧
    (∀ pre b, (run cfg fuel).trace = pre ++ [.poll b] →
      ∃ pre2 nid rid, pre = pre2 ++ [.exec nid rid false]) := by
  cases hin : cfg.input with
  | none =>
    simp only [run, hin]
    exact runLoop_alt cfg fuel _ _ 0
  | some inp =>
    simp only [run, hin]
    exact runLoop_alt cfg fuel _ _ 0

/-- Witness for C8: with the flag set, the run returns None right after the
first node execution completes, its trace being that execution then one
positive poll. -/
theorem cancellation_poll_between_nodes_witness :
    (run cfgFlag 3).ret = RunRet.value none :=
  (cancellation_poll_between_nodes cfgFlag 3).2.1 [RunEvent.exec 0 1 false] (by decide)

theorem successIdL_not_mem (l : List MemoryNode) (f : Nat) (h : ∀ n ∈ l, n.node_id ≠ f) :
    successIdL l f = l := by
  induction l with
  | nil => rfl
  | cons x xs ih =>
    have hx : (x.node_id == f) = false := by simpa using h x (by simp)
    have ih' := ih (fun n hn => h n (by simp [hn]))
    simp only [successIdL, List.map_cons, hx, Bool.false_eq_true, if_false]
    simp only [successIdL] at ih'
    rw [ih']

theorem insert_success_decomp (l : List MemoryNode) (f : Nat) (fn nw : MemoryNode)
    (hfind : l.find? (fun n => n.node_id == f) = some fn)
    (hnw : ∀ n ∈ l, n.node_id ≠ nw.node_id)
    (hnd : (l.map MemoryNode.node_id).Nodup) :
    ∃ pre post, l = pre ++ fn :: post ∧
      successIdL (insertAfterL l f nw) f =
        pre ++ { fn with status := NodeStatus.success } :: nw :: post := by
  induction l with
  | nil => simp [List.find?] at hfind
  | cons x xs ih =>
    cases hx : (x.node_id == f) with
    | true =>
      have hfx : (x :: xs).find? (fun n => n.node_id == f) = some x :=
        List.find?_cons_of_pos _ hx
      have hfn : fn = x := Option.some_inj.mp (hfx ▸ hfind).symm
      subst hfn
      have hxf : fn.node_id = f := by simpa using hx
      have hnwf : (nw.node_id == f) = false := by
        have hne := hnw fn (by simp)
        have hne2 : nw.node_id ≠ f := fun hc => hne (by rw [hxf, hc])
        simpa using hne2
      have hxs : ∀ n ∈ xs, n.node_id ≠ f := by
        intro n hn hc
        have hmem : fn.node_id ∉ xs.map MemoryNode.node_id := (List.nodup_cons.mp hnd).1
        exact hmem (by rw [hxf, ← hc]; exact List.mem_map_of_mem MemoryNode.node_id hn)
      refine ⟨[], xs, by simp, ?_⟩
      have htail := successIdL_not_mem xs f hxs
      simp only [insertAfterL, hx, if_true, successIdL, List.map_cons, hnwf,
        Bool.false_eq_true, if_false]
      simp only [successIdL] at htail
      rw [htail]
      simp [hx]
    | false =>
      have hfx : (x :: xs).find? (fun n => n.node_id == f) =
          xs.find? (fun n => n.node_id == f) :=
        List.find?_cons_of_neg _ (by simp [hx])
      have hfind' : xs.find? (fun n => n.node_id == f) = some fn := by
        rw [← hfx]; exact hfind
      obtain ⟨pre, post, h1, h2⟩ := ih hfind'
        (fun n hn => hnw n (by simp [hn]))
        ((List.nodup_cons.mp hnd).2)
      refine ⟨x :: pre, post, by simp [h1], ?_⟩
      simp only [insertAfterL, hx, Bool.false_eq_true, if_false, successIdL,
        List.map_cons]
      simp only [successIdL] at h2
      rw [h2]
      simp [hx]

/-- C10: Agent._insert_node with a for_node_id naming an existing node
inserts the new pending input node directly after the referenced node and
marks exactly the referenced node success, leaving every other node
(including their statuses) unchanged; this happens in run before the to-do
loop starts.  Without for_node_id the input node is appended and no
pre-existing node's status changes. -/
theorem insert_node_spec (m : Memory) (inp : String) (f : Nat) (fn : MemoryNode)
    (hnd : (m.nodes.map MemoryNode.node_id).Nodup)
    (hfresh : ∀ n ∈ m.nodes, n.node_id ≠ m.next_id)
    (hf : lookupMem m f = some fn) :
    ((insert_node m inp (some f)).2 = m.next_id ∧
     ∃ pre post, m.nodes = pre ++ fn :: post ∧
       (insert_node m inp (some f)).1.nodes =
         pre ++ { fn with status := NodeStatus.success } ::
           mkNode m.next_id ("user") ("input") inp :: post) ∧
    ((insert_node m inp none).2 = m.next_id ∧
     (insert_node m inp none).1.nodes = m.nodes ++ [mkNode m.next_id ("user") ("input") inp]) := by
  refine ⟨⟨rfl, ?_⟩, rfl, rfl⟩
  exact insert_success_decomp m.nodes f fn (mkNode m.next_id ("user") ("input") inp)
    hf hfresh hnd

/-- Witness for C10: inserting "go" after node 0 of the sample memory. -/
theorem insert_node_spec_witness :
    (insert_node sampleMemory ("go") (some 0)).2 = 1 ∧
    (insert_node sampleMemory ("go") none).1.nodes =
      sampleMemory.nodes ++ [mkNode 1 ("user") ("input") ("go")] := by
  obtain ⟨⟨ha, _⟩, _, hc⟩ :=
    insert_node_spec sampleMemory ("go") 0 sampleNode (by decide) (by decide) (by decide)
  exact ⟨ha, hc⟩

/-- C9: the plan structuring applied to the test input produces exactly two
top-level items, "1.xxx" then "2.xxx", the first with the single child
"1.1 xxx" and the second with no children. -/
theorem structure_plan_test :
    structure_plan ("1.xxx\n    1.1 xxx\n\n2.xxx\n\n") =
      PlanTree.mk [("1.xxx", PlanTree.mk [("1.1 xxx", PlanTree.mk [])]),
                   ("2.xxx", PlanTree.mk [])] := by
  rfl

theorem lookupC_key (c : Concepts) (k : String) (n : SNode) (h : lookupC c k = some n) :
    n.key = k := by
  have := List.find?_some h
  simpa using this

theorem keyMem_false_lookup (c : Concepts) (k : String) (h : keyMem c k = false) :
    lookupC c k = none := by
  induction c with
  | nil => rfl
  | cons x xs ih =>
    have hx : (x.key == k) = false := by
      by_contra hc
      simp [keyMem, Bool.not_eq_false] at h hc
      exact absurd h.1 (by simpa using hc)
    have hxs : keyMem xs k = false := by
      simp [keyMem] at h ⊢
      exact h.2
    simp [lookupC, List.find?, hx]
    simpa [lookupC] using ih hxs

theorem lookupC_none_keyMem (c : Concepts) (k : String) (h : lookupC c k = none) :
    keyMem c k = false := by
  by_contra hc
  simp [Bool.not_eq_false] at hc
  simp [keyMem] at hc
  obtain ⟨n, hn, hk⟩ := hc
  have : lookupC c k ≠ none := by
    simp [lookupC]
    exact ⟨n, hn, by simpa using hk⟩
  exact this h

theorem lookupC_map_keep (c : Concepts) (g : SNode → SNode) (hg : ∀ n, (g n).key = n.key)
    (k : String) : lookupC (c.map g) k = (lookupC c k).map g := by
  induction c with
  | nil => rfl
  | cons x xs ih =>
    by_cases hx : (x.key == k) = true
    · simp [lookupC, List.find?, hg, hx]
    · have hx' : (x.key == k) = false := by simpa using hx
      simp only [lookupC, List.map_cons, List.find?, hg x, hx']
      simpa [lookupC] using ih

theorem lookupC_append (c d : Concepts) (k : String) :
    lookupC (c ++ d) k = match lookupC c k with
      | some n => some n
      | none => lookupC d k := by
  induction c with
  | nil => simp [lookupC]
  | cons x xs ih =>
    by_cases hx : (x.key == k) = true
    · simp [lookupC, List.find?, hx]
    · have hx' : (x.key == k) = false := by simpa using hx
      simp only [lookupC, List.cons_append, List.find?, hx']
      simpa [lookupC] using ih

theorem keyMem_map_keep (c : Concepts) (g : SNode → SNode) (hg : ∀ n, (g n).key = n.key)
    (k : String) : keyMem (c.map g) k = keyMem c k := by
  simp only [keyMem, List.any_map]
  congr 1
  funext n
  simp [Function.comp, hg n]

theorem keyMem_append_one (c : Concepts) (n : SNode) (k : String) :
    keyMem (c ++ [n]) k = (keyMem c k || (n.key == k)) := by
  simp [keyMem, List.any_append]

theorem keyMem_parse_show (c : Concepts) (s : String) (k : String)
    (h : keyMem c k = true) : keyMem (parse_show c s).1 k = true := by
  unfold parse_show
  cases hm : showMatchOf s with
  | none => simpa using h
  | some p =>
    obtain ⟨g0, g2⟩ := p
    simp only
    rw [keyMem_map_keep]
    · exact h
    · intro n
      by_cases hn : n.key ∈ keysOfBody g2 <;> simp [hn]

theorem keyMem_hideStep (acc : Concepts) (k' k : String) (h : keyMem acc k = true) :
    keyMem (hideStep acc k') k = true := by
  unfold hideStep
  by_cases hmem : keyMem acc k' = true
  · simp only [hmem, if_true]
    rw [keyMem_map_keep]
    · exact h
    · intro n
      by_cases hn : n.key = k' <;> simp [hn]
  · have hmem' : keyMem acc k' = false := by simpa using hmem
    simp only [hmem', Bool.false_eq_true, if_false]
    rw [keyMem_append_one, h]
    simp

theorem keyMem_foldl_hideStep (keys : List String) :
    ∀ (acc : Concepts) (k : String), keyMem acc k = true →
      keyMem (keys.foldl hideStep acc) k = true := by
  induction keys with
  | nil => intro acc k h; simpa using h
  | cons k0 keys ih =>
    intro acc k h
    simpa using ih (hideStep acc k0) k (keyMem_hideStep acc k0 k h)

theorem keyMem_parse_hide (c : Concepts) (s : String) (k : String)
    (h : keyMem c k = true) : keyMem (parse_hide c s).1 k = true := by
  unfold parse_hide
  by_cases he : (hideKeysOf s).isEmpty = true
  · simpa [he] using h
  · have he' : (hideKeysOf s).isEmpty = false := by simpa using he
    simpa [he'] using keyMem_foldl_hideStep (hideKeysOf s) c k h

theorem keyMem_upsert (acc : Concepts) (k' v k : String) (h : keyMem acc k = true) :
    keyMem (upsertContent acc k' v) k = true := by
  unfold upsertContent
  by_cases hmem : keyMem acc k' = true
  · simp only [hmem, if_true]
    rw [keyMem_map_keep]
    · exact h
    · intro n
      by_cases hn : n.key = k' <;> simp [hn]
  · have hmem' : keyMem acc k' = false := by simpa using hmem
    simp only [hmem', Bool.false_eq_true, if_false]
    rw [keyMem_append_one, h]
    simp

theorem keyMem_foldl_upsert (ps : List (String × String)) :
    ∀ (acc : Concepts) (k : String), keyMem acc k = true →
      keyMem (ps.foldl (fun a p => upsertContent a p.1 p.2) acc) k = true := by
  induction ps with
  | nil => intro acc k h; simpa using h
  | cons p ps ih =>
    intro acc k h
    simpa using ih (upsertContent acc p.1 p.2) k (keyMem_upsert acc p.1 p.2 k h)

theorem keyMem_parse_block (c : Concepts) (s : String) (k : String)
    (h : keyMem c k = true) : keyMem (parse_block c s).1 k = true := by
  unfold parse_block
  simpa using keyMem_foldl_upsert (get_nodes s) c k h

theorem keyMem_post_parse (c : Concepts) (s : String) (k : String)
    (h : keyMem c k = true) : keyMem (post_parse c s).1 k = true := by
  unfold post_parse
  simp only
  exact keyMem_parse_block _ _ _ (keyMem_parse_hide _ _ _ h)

theorem keyMem_streamPass (toks : List (Option String)) :
    ∀ (c : Concepts) (r : String) (k : String), keyMem c k = true →
      keyMem (streamPass toks c r).1 k = true := by
  induction toks with
  | nil => intro c r k h; simpa [streamPass] using h
  | cons t toks ih =>
    intro c r k h
    cases t with
    | none => simpa [streamPass] using ih c r k h
    | some t =>
      simp only [streamPass]
      by_cases hp : (instant_parse c (r ++ t)).2.1 = true
      · simp only [hp, if_true]
        exact keyMem_post_parse _ _ _ (keyMem_parse_show _ _ _ h)
      · have hp' : (instant_parse c (r ++ t)).2.1 = false := by simpa using hp
        simp only [hp', Bool.false_eq_true, if_false]
        exact ih _ _ k (keyMem_parse_show _ _ _ h)

theorem keyMem_addContentLoop (streams : Nat → List (Option String)) :
    ∀ (fuel k0 : Nat) (c : Concepts) (r : String) (k : String), keyMem c k = true →
      keyMem (addContentLoop streams fuel k0 c r).1 k = true := by
  intro fuel
  induction fuel with
  | zero => intro k0 c r k h; simpa [addContentLoop] using h
  | succ fuel ih =>
    intro k0 c r k h
    simp only [addContentLoop]
    by_cases hp : (streamPass (streams k0) c r).2.2 = true
    · simp only [hp, if_true]
      exact ih (k0 + 1) _ _ k (keyMem_streamPass _ _ _ _ h)
    · have hp' : (streamPass (streams k0) c r).2.2 = false := by simpa using hp
      simp only [hp', Bool.false_eq_true, if_false]
      exact keyMem_post_parse _ _ _ (keyMem_streamPass _ _ _ _ h)

theorem rootFlag_parse_show (c : Concepts) (s : String)
    (h : ("ROOT") ∉ showKeysOf s) : rootFlag (parse_show c s).1 = rootFlag c := by
  unfold parse_show
  cases hm : showMatchOf s with
  | none => rfl
  | some p =>
    obtain ⟨g0, g2⟩ := p
    have hk : ("ROOT") ∉ keysOfBody g2 := by
      unfold showKeysOf at h
      rw [hm] at h
      exact h
    simp only [rootFlag]
    rw [lookupC_map_keep]
    · cases hl : lookupC c ("ROOT") with
      | none => rfl
      | some n =>
        have hkey : n.key = "ROOT" := lookupC_key c ("ROOT") n hl
        simp [hkey, hk]
    · intro n
      by_cases hn : n.key ∈ keysOfBody g2 <;> simp [hn]

theorem rootFlag_hideStep (acc : Concepts) (k' : String) (h : rootFlag acc = false) :
    rootFlag (hideStep acc k') = false := by
  unfold hideStep
  by_cases hmem : keyMem acc k' = true
  · simp only [hmem, if_true, rootFlag]
    rw [lookupC_map_keep]
    · cases hl : lookupC acc ("ROOT") with
      | none => rfl
      | some n =>
        simp only [rootFlag, hl] at h
        by_cases hn : n.key = k' <;> simp [hn, h]
    · intro n
      by_cases hn : n.key = k' <;> simp [hn]
  · have hmem' : keyMem acc k' = false := by simpa using hmem
    simp only [hmem', Bool.false_eq_true, if_false, rootFlag]
    rw [lookupC_append]
    cases hl : lookupC acc ("ROOT") with
    | none =>
      simp only [rootFlag, hl] at h ⊢
      by_cases hn : (k' == "ROOT") = true <;> simp [lookupC, List.find?, hn]
    | some n =>
      simp only [rootFlag, hl] at h
      simpa using h

theorem rootFlag_foldl_hideStep (keys : List String) :
    ∀ (acc : Concepts), rootFlag acc = false →
      rootFlag (keys.foldl hideStep acc) = false := by
  induction keys with
  | nil => intro acc h; simpa using h
  | cons k0 keys ih =>
    intro acc h
    simpa using ih (hideStep acc k0) (rootFlag_hideStep acc k0 h)

theorem rootFlag_parse_hide (c : Concepts) (s : String) (h : rootFlag c = false) :
    rootFlag (parse_hide c s).1 = false := by
  unfold parse_hide
  by_cases he : (hideKeysOf s).isEmpty = true
  · simpa [he] using h
  · have he' : (hideKeysOf s).isEmpty = false := by simpa using he
    simpa [he'] using rootFlag_foldl_hideStep (hideKeysOf s) c h

theorem rootFlag_upsert (acc : Concepts) (k' v : String) :
    rootFlag (upsertContent acc k' v) = rootFlag acc := by
  unfold upsertContent
  by_cases hmem : keyMem acc k' = true
  · simp only [hmem, if_true, rootFlag]
    rw [lookupC_map_keep]
    · cases hl : lookupC acc ("ROOT") with
      | none => rfl
      | some n => by_cases hn : n.key = k' <;> simp [hn]
    · intro n
      by_cases hn : n.key = k' <;> simp [hn]
  · have hmem' : keyMem acc k' = false := by simpa using hmem
    simp only [hmem', Bool.false_eq_true, if_false, rootFlag]
    rw [lookupC_append]
    cases hl : lookupC acc ("ROOT") with
    | none =>
      by_cases hn : (k' == "ROOT") = true
      · have hk : k' = "ROOT" := by simpa using hn
        have : keyMem acc ("ROOT") = false := by rw [← hk]; exact hmem'
        simp [lookupC, List.find?, hn]
      · have hn' : (k' == "ROOT") = false := by simpa using hn
        simp [lookupC, List.find?, hn']
    | some n => simp

theorem rootFlag_foldl_upsert (ps : List (String × String)) :
    ∀ (acc : Concepts),
      rootFlag (ps.foldl (fun a p => upsertContent a p.1 p.2) acc) = rootFlag acc := by
  induction ps with
  | nil => intro acc; rfl
  | cons p ps ih =>
    intro acc
    rw [List.foldl_cons, ih, rootFlag_upsert]

theorem rootFlag_parse_block (c : Concepts) (s : String) :
    rootFlag (parse_block c s).1 = rootFlag c := by
  unfold parse_block
  simpa using rootFlag_foldl_upsert (get_nodes s) c

/-- C4 (amended): the ROOT concept exists after initialization with its show
flag false, and its existence is preserved by every parse pass (show, hide,
block) and by every add_content call; the block pass never changes ROOT's
show flag, the hide pass keeps it false, and the show pass keeps it
unchanged provided the parsed show directive does not list ROOT.  The
unamended claim fails because a show directive listing ROOT does set the flag
true (and text outside any block is dropped rather than accumulated into
ROOT). -/
theorem root_concept_invariant (c : Concepts) (s : String)
    (streams : Nat → List (Option String)) (fuel : Nat)
    (hroot : keyMem c ("ROOT") = true) :
    keyMem initConcepts ("ROOT") = true ∧ rootFlag initConcepts = false ∧
    keyMem (parse_show c s).1 ("ROOT") = true ∧
    keyMem (parse_hide c s).1 ("ROOT") = true ∧
    keyMem (parse_block c s).1 ("ROOT") = true ∧
    keyMem (add_content streams fuel c).1 ("ROOT") = true ∧
    (("ROOT") ∉ showKeysOf s → rootFlag (parse_show c s).1 = rootFlag c) ∧
    (rootFlag c = false → rootFlag (parse_hide c s).1 = false) ∧
    rootFlag (parse_block c s).1 = rootFlag c := by
  refine ⟨by decide, by decide, keyMem_parse_show c s _ hroot, keyMem_parse_hide c s _ hroot,
    keyMem_parse_block c s _ hroot, ?_, fun h => rootFlag_parse_show c s h,
    fun h => rootFlag_parse_hide c s h, rootFlag_parse_block c s⟩
  unfold add_content
  simp only
  exact keyMem_addContentLoop streams fuel 0 c ("") ("ROOT") hroot

/-- Counterexample for C4: starting from the initial store, a block pass
giving ROOT content followed by a show directive listing ROOT turns its show
flag true and makes it appear in get_show_memory; moreover a pass over plain
unmarked text leaves the store unchanged, accumulating nothing into ROOT. -/
theorem root_shown_after_show_directive :
    rootFlag ((parse_show ((parse_block initConcepts ("<<ROOT>>\nhello")).1)
      ("```show\nROOT\n```")).1) = true ∧
    get_show_memory ((parse_show ((parse_block initConcepts ("<<ROOT>>\nhello")).1)
      ("```show\nROOT\n```")).1) = "<<ROOT>>\nhello" ∧
    (post_parse initConcepts ("orphan line")).1 = initConcepts := by
  decide

/-- Witness for C4: the invariant instantiated at the initial store and a
text without directives. -/
theorem root_concept_invariant_witness :
    keyMem (parse_show initConcepts ("plain text")).1 ("ROOT") = true ∧
    rootFlag (parse_show initConcepts ("plain text")).1 = rootFlag initConcepts := by
  obtain ⟨h1, h2, h3, h4, h5, h6, h7, h8, h9⟩ :=
    root_concept_invariant initConcepts ("plain text") (fun _ => []) 0 (by decide)
  exact ⟨h3, h7 (by decide)⟩

theorem lookupC_keyMem (c : Concepts) (k : String) (n : SNode) (h : lookupC c k = some n) :
    keyMem c k = true := by
  by_contra hc
  have : keyMem c k = false := by simpa using hc
  rw [keyMem_false_lookup c k this] at h
  exact Option.noConfusion h

theorem lookupC_hideStep_created (acc : Concepts) (k : String)
    (h : keyMem acc k = false) : lookupC (hideStep acc k) k = some ⟨k, "", false⟩ := by
  unfold hideStep
  simp only [h, Bool.false_eq_true, if_false]
  rw [lookupC_append, keyMem_false_lookup acc k h]
  simp [lookupC, List.find?]

theorem lookupC_hideStep_keep (acc : Concepts) (k k' : String)
    (h : lookupC acc k = some ⟨k, "", false⟩) :
    lookupC (hideStep acc k') k = some ⟨k, "", false⟩ := by
  unfold hideStep
  by_cases hmem : keyMem acc k' = true
  · simp only [hmem, if_true]
    rw [lookupC_map_keep]
    · rw [h]
      by_cases hn : k = k' <;> simp [hn]
    · intro n
      by_cases hn : n.key = k' <;> simp [hn]
  · have hmem' : keyMem acc k' = false := by simpa using hmem
    simp only [hmem', Bool.false_eq_true, if_false]
    rw [lookupC_append, h]

theorem keyMem_hideStep_ne (acc : Concepts) (k k' : String) (hne : k' ≠ k)
    (h : keyMem acc k = false) : keyMem (hideStep acc k') k = false := by
  unfold hideStep
  by_cases hmem : keyMem acc k' = true
  · simp only [hmem, if_true]
    rw [keyMem_map_keep]
    · exact h
    · intro n
      by_cases hn : n.key = k' <;> simp [hn]
  · have hmem' : keyMem acc k' = false := by simpa using hmem
    simp only [hmem', Bool.false_eq_true, if_false]
    rw [keyMem_append_one, h]
    simpa using hne

theorem lookupC_foldl_hideStep_keep (keys : List String) :
    ∀ (acc : Concepts) (k : String), lookupC acc k = some ⟨k, "", false⟩ →
      lookupC (keys.foldl hideStep acc) k = some ⟨k, "", false⟩ := by
  induction keys with
  | nil => intro acc k h; simpa using h
  | cons k0 keys ih =>
    intro acc k h
    simpa using ih (hideStep acc k0) k (lookupC_hideStep_keep acc k k0 h)

theorem lookupC_foldl_hideStep_created (keys : List String) :
    ∀ (acc : Concepts) (k : String), k ∈ keys → keyMem acc k = false →
      lookupC (keys.foldl hideStep acc) k = some ⟨k, "", false⟩ := by
  induction keys with
  | nil => intro acc k hk; exact absurd hk (by simp)
  | cons k0 keys ih =>
    intro acc k hk h
    by_cases hk0 : k0 = k
    · subst hk0
      simpa using lookupC_foldl_hideStep_keep keys (hideStep acc k0) k0
        (lookupC_hideStep_created acc k0 h)
    · have hk' : k ∈ keys := by
        rcases List.mem_cons.mp hk with hc | hc
        · exact absurd hc.symm hk0
        · exact hc
      simpa using ih (hideStep acc k0) k hk' (keyMem_hideStep_ne acc k k0 hk0 h)

/-- C5 (amended): a hide directive listing a key that names no existing
concept creates it as an empty hidden concept and the pass proceeds; a show
directive listing an unknown key tolerates it by skipping it — the key is
not created and the store is left without it — and the pass proceeds.  The
unamended claim fails for show directives: the unknown key is not created. -/
theorem unknown_directive_keys (c : Concepts) (s : String) (k : String) :
    (k ∈ hideKeysOf s → keyMem c k = false →
      lookupC (parse_hide c s).1 k = some ⟨k, "", false⟩) ∧
    (keyMem c k = false → lookupC (parse_show c s).1 k = none) := by
  constructor
  · intro hk h
    unfold parse_hide
    have hne : (hideKeysOf s).isEmpty = false := by
      cases hks : hideKeysOf s with
      | nil => rw [hks] at hk; exact absurd hk (by simp)
      | cons a l => simp
    simp only [hne, Bool.false_eq_true, if_false]
    exact lookupC_foldl_hideStep_created (hideKeysOf s) c k hk h
  · intro h
    unfold parse_show
    cases hm : showMatchOf s with
    | none => exact keyMem_false_lookup c k h
    | some p =>
      obtain ⟨g0, g2⟩ := p
      simp only
      rw [lookupC_map_keep]
      · rw [keyMem_false_lookup c k h]
        rfl
      · intro n
        by_cases hn : n.key ∈ keysOfBody g2 <;> simp [hn]

/-- Counterexample for C5: a show directive listing the unknown key NEW does
not create it: after the pass the key is still absent from the store. -/
theorem show_unknown_key_not_created :
    lookupC ((parse_show initConcepts ("```show\nNEW\n```")).1) ("NEW") = none := by
  decide

/-- Witness for C5: a hide directive creates the unknown key K1 as an empty
hidden concept, and a show directive leaves the unknown key NEW uncreated. -/
theorem unknown_directive_keys_witness :
    lookupC ((parse_hide initConcepts ("```hide\nK1\n```")).1) ("K1") =
      some ⟨"K1", "", false⟩ ∧
    lookupC ((parse_show initConcepts ("```show\nNEW2\n```")).1) ("NEW2") = none := by
  refine ⟨?_, ?_⟩
  · exact (unknown_directive_keys initConcepts ("```hide\nK1\n```") ("K1")).1
      (by decide) (by decide)
  · exact (unknown_directive_keys initConcepts ("```show\nNEW2\n```") ("NEW2")).2
      (by decide)

theorem assocAdd_nodup (l : List (String × String)) (k v : String)
    (h : (l.map Prod.fst).Nodup) : ((assocAdd l k v).map Prod.fst).Nodup := by
  unfold assocAdd
  by_cases hmem : l.any (fun p => p.1 == k) = true
  · simp only [hmem, if_true]
    have heq : (l.map (fun p => if p.1 == k then (p.1, p.2 ++ v) else p)).map Prod.fst =
        l.map Prod.fst := by
      rw [List.map_map]
      congr 1
      funext p
      by_cases hp : (p.1 == k) = true <;> simp [Function.comp, hp]
    rw [heq]
    exact h
  · have hmem' : l.any (fun p => p.1 == k) = false := by
      simp only [Bool.not_eq_true] at hmem
      exact hmem
    simp only [hmem', Bool.false_eq_true, if_false, List.map_append]
    have hnot : k ∉ l.map Prod.fst := by
      intro hc
      obtain ⟨p, hp, hpk⟩ := List.mem_map.mp hc
      have := List.any_eq_false.mp hmem' p hp
      simp [hpk] at this
    simp [List.nodup_append, h, hnot]

theorem getNodesLoop_nodup (lines : List String) :
    ∀ (key : Option String) (value : String) (nodes : List (String × String)),
      (nodes.map Prod.fst).Nodup →
      ((getNodesLoop lines key value nodes).map Prod.fst).Nodup := by
  induction lines with
  | nil =>
    intro key value nodes h
    cases key with
    | none => simpa [getNodesLoop] using h
    | some k => simpa [getNodesLoop] using assocAdd_nodup nodes k value h
  | cons line rest ih =>
    intro key value nodes h
    simp only [getNodesLoop]
    by_cases he : (trimS line == "") = true
    · simp only [he, if_true]
      exact ih key value nodes h
    · have he' : (trimS line == "") = false := by simpa using he
      simp only [he', Bool.false_eq_true, if_false]
      by_cases ht : isTitleLine (trimS line) = true
      · simp only [ht, if_true]
        cases key with
        | none => exact ih _ value nodes h
        | some k => exact ih _ ("") _ (assocAdd_nodup nodes k value h)
      · have ht' : isTitleLine (trimS line) = false := by simpa using ht
        simp only [ht', Bool.false_eq_true, if_false]
        exact ih key _ nodes h

theorem get_nodes_nodup (content : String) : ((get_nodes content).map Prod.fst).Nodup := by
  unfold get_nodes
  rw [List.map_map]
  have heq : (Prod.fst ∘ fun p : String × String => (p.1, trimS p.2)) =
      (Prod.fst : String × String → String) := by
    funext p
    rfl
  rw [heq]
  exact getNodesLoop_nodup (linesS (trimS content)) none ("") [] (by simp)

theorem lookupC_upsert_self (acc : Concepts) (k v : String) :
    lookupC (upsertContent acc k v) k =
      some ⟨k, v, ((lookupC acc k).map SNode.showFlag).getD false⟩ := by
  unfold upsertContent
  by_cases hmem : keyMem acc k = true
  · simp only [hmem, if_true]
    rw [lookupC_map_keep]
    · cases hl : lookupC acc k with
      | none => exact absurd (lookupC_none_keyMem acc k hl) (by simp [hmem])
      | some n =>
        have hkey : n.key = k := lookupC_key acc k n hl
        simp [hkey]
    · intro n
      by_cases hn : n.key = k <;> simp [hn]
  · have hmem' : keyMem acc k = false := by simpa using hmem
    simp only [hmem', Bool.false_eq_true, if_false]
    rw [lookupC_append, keyMem_false_lookup acc k hmem']
    simp [lookupC, List.find?]

theorem lookupC_upsert_other (acc : Concepts) (k' v k : String) (h : k' ≠ k) :
    lookupC (upsertContent acc k' v) k = lookupC acc k := by
  unfold upsertContent
  by_cases hmem : keyMem acc k' = true
  · simp only [hmem, if_true]
    rw [lookupC_map_keep]
    · cases hl : lookupC acc k with
      | none => rfl
      | some n =>
        have hkey : n.key = k := lookupC_key acc k n hl
        have hne : ¬(n.key = k') := by
          rw [hkey]
          exact fun hc => h hc.symm
        simp [hne]
    · intro n
      by_cases hn : n.key = k' <;> simp [hn]
  · have hmem' : keyMem acc k' = false := by simpa using hmem
    simp only [hmem', Bool.false_eq_true, if_false]
    rw [lookupC_append]
    cases hl : lookupC acc k with
    | none =>
      have hne : (k' == k) = false := by simpa using h
      simp [lookupC, List.find?, hne]
    | some n => simp

theorem foldl_upsert_preserve (ps : List (String × String)) :
    ∀ (acc : Concepts) (k : String), (∀ p ∈ ps, p.1 ≠ k) →
      lookupC (ps.foldl (fun a p => upsertContent a p.1 p.2) acc) k = lookupC acc k := by
  induction ps with
  | nil => intro acc k _; rfl
  | cons p ps ih =>
    intro acc k h
    rw [List.foldl_cons, ih _ k (fun q hq => h q (by simp [hq])),
      lookupC_upsert_other acc p.1 p.2 k (h p (by simp))]

theorem foldl_upsert_mem (ps : List (String × String)) :
    ∀ (acc : Concepts) (k v : String), (ps.map Prod.fst).Nodup → (k, v) ∈ ps →
      lookupC (ps.foldl (fun a p => upsertContent a p.1 p.2) acc) k =
        some ⟨k, v, ((lookupC acc k).map SNode.showFlag).getD false⟩ := by
  induction ps with
  | nil => intro acc k v _ hm; exact absurd hm (by simp)
  | cons p ps ih =>
    intro acc k v hnd hm
    obtain ⟨k0, v0⟩ := p
    rcases List.mem_cons.mp hm with hh | ht
    · have hk : k = k0 := congrArg Prod.fst hh
      have hv : v = v0 := congrArg Prod.snd hh
      subst hk
      subst hv
      rw [List.foldl_cons]
      have hnot : ∀ q ∈ ps, q.1 ≠ k := by
        intro q hq hc
        have : k ∉ ps.map Prod.fst := (List.nodup_cons.mp (by simpa using hnd)).1
        exact this (hc ▸ List.mem_map_of_mem Prod.fst hq)
      rw [foldl_upsert_preserve ps _ k hnot]
      exact lookupC_upsert_self acc k v
    · have hk0 : k0 ≠ k := by
        have hnin : k0 ∉ ps.map Prod.fst := (List.nodup_cons.mp (by simpa using hnd)).1
        intro hc
        subst hc
        exact hnin (List.mem_map_of_mem Prod.fst ht)
      rw [List.foldl_cons,
        ih (upsertContent acc k0 v0) k v ((List.nodup_cons.mp (by simpa using hnd)).2) ht,
        lookupC_upsert_other acc k0 v0 k hk0]

theorem getNodesLoop_single (ls : List String) :
    ∀ (k value : String), (∀ l ∈ ls, isTitleLine (trimS l) = false) →
      getNodesLoop ls (some k) value [] =
        [(k, ls.foldl (fun acc l => if trimS l == "" then acc else acc ++ trimS l ++ "\n") value)] := by
  induction ls with
  | nil => intro k value _; simp [getNodesLoop, assocAdd]
  | cons l ls ih =>
    intro k value h
    simp only [getNodesLoop, List.foldl_cons]
    by_cases ht : (trimS l == "") = true
    · simp only [ht, if_true]
      exact ih k value (fun x hx => h x (by simp [hx]))
    · have ht' : (trimS l == "") = false := by simpa using ht
      have hnt : isTitleLine (trimS l) = false := h l (by simp)
      simp only [ht', Bool.false_eq_true, if_false, hnt]
      exact ih k _ (fun x hx => h x (by simp [hx]))

/-- C6 (amended): every (title, value) pair produced by get_nodes is upserted
by _parse_block — a previously absent title is created with show false, an
existing title keeps its show flag and gets the new content; and get_nodes
handles lines as the source does: after a title line, each body line is
individually stripped, blank lines are dropped, and the stripped lines
accumulate with newlines until the next title marker or the end of the text
(the final value is then stripped per block).  The unamended claim fails on
"accumulate verbatim": interior lines are stripped and blank lines dropped. -/
theorem block_upsert_and_line_handling :
    (∀ (c : Concepts) (content k v : String), (k, v) ∈ get_nodes content →
      lookupC (parse_block c content).1 k =
        some ⟨k, v, ((lookupC c k).map SNode.showFlag).getD false⟩) ∧
    (∀ (tl : String) (ls : List String), trimS tl = tl → isTitleLine tl = true →
      (∀ l ∈ ls, isTitleLine (trimS l) = false) →
      getNodesLoop (tl :: ls) none ("") [] =
        [(innerTitle tl,
          ls.foldl (fun acc l => if trimS l == "" then acc else acc ++ trimS l ++ "\n") (""))]) := by
  constructor
  · intro c content k v hm
    unfold parse_block
    simpa using foldl_upsert_mem (get_nodes content) c k v (get_nodes_nodup content) hm
  · intro tl ls htrim htitle hls
    have hne : (tl == "") = false := by
      by_cases hc : tl = ""
      · rw [hc] at htitle
        exact absurd htitle (by decide)
      · simpa using hc
    simp only [getNodesLoop, htrim, hne, Bool.false_eq_true, if_false, htitle, if_true]
    exact getNodesLoop_single ls (innerTitle tl) ("") hls

/-- Counterexample for C6: body lines do not accumulate verbatim — each line
is stripped and blank lines are dropped, so get_nodes disagrees with the
spec-worded verbatim per-block variant on a body with interior whitespace. -/
theorem get_nodes_not_verbatim :
    get_nodes ("<<T>>\na\n  b c  \nd") = [("T", "a\nb c\nd")] ∧
    specGetNodesVerbatim ("<<T>>\na\n  b c  \nd") = [("T", "a\n  b c  \nd")] ∧
    get_nodes ("<<T>>\na\n  b c  \nd") ≠ specGetNodesVerbatim ("<<T>>\na\n  b c  \nd") := by
  decide

/-- Witness for C6: upserting a concrete block into the initial store and the
line handling of a concrete single-title text. -/
theorem block_upsert_and_line_handling_witness :
    lookupC ((parse_block initConcepts ("<<T>>\nv1")).1) ("T") = some ⟨"T", "v1", false⟩ ∧
    getNodesLoop ["<<T>>", " a "] none ("") [] = [("T", "a\n")] := by
  obtain ⟨h1, h2⟩ := block_upsert_and_line_handling
  constructor
  · rw [h1 initConcepts ("<<T>>\nv1") ("T") ("v1") (by decide)]
    decide
  · rw [h2 ("<<T>>") [" a "] (by decide) (by decide) (by decide)]
    decide
